import Mathlib

set_option maxHeartbeats 1000000

namespace KeyvNedb

/-! Shallow embedding of `keyv-nedb-store` (src/src/index.ts): the key-escaping
transform `escapeKeys` / `unescapeKeys` and the namespaced, TTL-aware store
operations of `KeyvNedbStore` backed by an NeDB datastore.

Strings are modelled as `List Char`.  JSON-like values (what the store
serializes) are modelled by the mutually inductive types `JVal` / `JArr` /
`JObj`; an object is an ordered list of key/value pairs, mirroring JS
`Object.entries` insertion order. -/

mutual
/-- JSON-like value: primitive, array, or object, as handled by
`escapeKeys` / `unescapeKeys` in src/src/index.ts. -/
inductive JVal : Type where
  | str : List Char → JVal
  | num : Int → JVal
  | bool : Bool → JVal
  | null : JVal
  | arr : JArr → JVal
  | obj : JObj → JVal

/-- Ordered sequence of JSON-like values. -/
inductive JArr : Type where
  | nil : JArr
  | cons : JVal → JArr → JArr

/-- Ordered mapping from string keys to JSON-like values. -/
inductive JObj : Type where
  | nil : JObj
  | cons : List Char → JVal → JObj → JObj
end

/-- JS `String.prototype.replace` with a global single-character pattern:
`s.replace(/a/g, r)`.  Scans left to right; each occurrence of the character
`a` is replaced by `r`, and replacement text is not rescanned. -/
def ra1 (a : Char) (r : List Char) : List Char → List Char
  | [] => []
  | c :: cs => if c = a then r ++ ra1 a r cs else c :: ra1 a r cs

/-- JS `String.prototype.replace` with a global three-character literal
pattern: `s.replace(/abc/g, r)`.  Scans left to right, replaces each
non-overlapping occurrence of the literal `[a, b, c]` by `r`; replacement
text is not rescanned. -/
def ra3 (a b c : Char) (r : List Char) : List Char → List Char
  | [] => []
  | [x] => [x]
  | [x, y] => [x, y]
  | x :: y :: z :: rest =>
    if x = a ∧ y = b ∧ z = c then r ++ ra3 a b c r rest
    else x :: ra3 a b c r (y :: z :: rest)

/-- The per-key escaping of `escapeKeys` (src/src/index.ts lines 170-181):
`k.replace(/%/g, "%25").replace(/\./g, "%2E").replace(/\$/g, "%24")`,
innermost replace applied first. -/
def escKey (k : List Char) : List Char :=
  ra1 '$' ['%', '2', '4'] (ra1 '.' ['%', '2', 'E'] (ra1 '%' ['%', '2', '5'] k))

/-- The per-key unescaping of `unescapeKeys` (src/src/index.ts lines 187-197):
`k.replace(/%2E/g, ".").replace(/%24/g, "$").replace(/%25/g, "%")`,
innermost replace applied first. -/
def unescKey (k : List Char) : List Char :=
  ra3 '%' '2' '5' ['%'] (ra3 '%' '2' '4' ['$'] (ra3 '%' '2' 'E' ['.'] k))

mutual
/-- `escapeKeys` from src/src/index.ts: arrays are mapped elementwise,
objects get every key escaped with `escKey` and every value recursed into,
primitives pass through unchanged. -/
def escapeKeys : JVal → JVal
  | .str s => .str s
  | .num n => .num n
  | .bool b => .bool b
  | .null => .null
  | .arr a => .arr (escapeArr a)
  | .obj o => .obj (escapeObj o)

/-- Elementwise `escapeKeys` over an array (`o.map(escapeKeys)`). -/
def escapeArr : JArr → JArr
  | .nil => .nil
  | .cons v rest => .cons (escapeKeys v) (escapeArr rest)

/-- `escapeKeys` over the entries of an object. -/
def escapeObj : JObj → JObj
  | .nil => .nil
  | .cons k v rest => .cons (escKey k) (escapeKeys v) (escapeObj rest)
end

mutual
/-- `unescapeKeys` from src/src/index.ts: arrays are mapped elementwise,
objects get every key unescaped with `unescKey` and every value recursed
into, primitives pass through unchanged. -/
def unescapeKeys : JVal → JVal
  | .str s => .str s
  | .num n => .num n
  | .bool b => .bool b
  | .null => .null
  | .arr a => .arr (unescapeArr a)
  | .obj o => .obj (unescapeObj o)

/-- Elementwise `unescapeKeys` over an array (`o.map(unescapeKeys)`). -/
def unescapeArr : JArr → JArr
  | .nil => .nil
  | .cons v rest => .cons (unescapeKeys v) (unescapeArr rest)

/-- `unescapeKeys` over the entries of an object. -/
def unescapeObj : JObj → JObj
  | .nil => .nil
  | .cons k v rest => .cons (unescKey k) (unescapeKeys v) (unescapeObj rest)
end

/-- Character-wise expansion: concatenate `f c` over the characters of the
input.  Used to restate the sequential replaces as one pass. -/
def expand (f : Char → List Char) : List Char → List Char
  | [] => []
  | c :: cs => f c ++ expand f cs

/-- Net effect of the full escape chain on a single character. -/
def escChar (c : Char) : List Char :=
  if c = '%' then ['%', '2', '5']
  else if c = '.' then ['%', '2', 'E']
  else if c = '$' then ['%', '2', '4']
  else [c]

/-- Blocks remaining after the first unescape pass (`%2E` decoded back to `.`). -/
def escChar1 (c : Char) : List Char :=
  if c = '%' then ['%', '2', '5']
  else if c = '$' then ['%', '2', '4']
  else [c]

/-- Blocks remaining after the second unescape pass (`%24` decoded back to `$`). -/
def escChar2 (c : Char) : List Char :=
  if c = '%' then ['%', '2', '5'] else [c]

theorem ra1_eq_expand (a : Char) (r : List Char) :
    ∀ s : List Char, ra1 a r s = expand (fun c => if c = a then r else [c]) s
  | [] => rfl
  | c :: cs => by
    by_cases h : c = a <;> simp [ra1, expand, h, ra1_eq_expand a r cs]

theorem expand_append (f : Char → List Char) (s t : List Char) :
    expand f (s ++ t) = expand f s ++ expand f t := by
  induction s with
  | nil => rfl
  | cons c cs ih => simp [expand, ih]

theorem expand_expand (g f : Char → List Char) :
    ∀ s : List Char, expand g (expand f s) = expand (fun c => expand g (f c)) s
  | [] => rfl
  | c :: cs => by
    simp only [expand, expand_append, expand_expand g f cs]

/-- The three sequential replaces of `escKey` act as one character-wise
expansion: `%` ↦ `%25`, `.` ↦ `%2E`, `$` ↦ `%24`, all other characters
unchanged.  In particular no newly introduced `%` is ever re-escaped. -/
theorem escKey_eq_expand (k : List Char) : escKey k = expand escChar k := by
  show ra1 '$' ['%', '2', '4'] (ra1 '.' ['%', '2', 'E'] (ra1 '%' ['%', '2', '5'] k))
      = expand escChar k
  rw [ra1_eq_expand, ra1_eq_expand, ra1_eq_expand, expand_expand, expand_expand]
  have hfun : (fun c => expand (fun c1 =>
      expand (fun c2 => if c2 = '$' then ['%', '2', '4'] else [c2])
        (if c1 = '.' then ['%', '2', 'E'] else [c1]))
      (if c = '%' then ['%', '2', '5'] else [c])) = escChar := by
    funext c
    by_cases h1 : c = '%'
    · subst h1; decide
    · by_cases h2 : c = '.'
      · subst h2; decide
      · by_cases h3 : c = '$'
        · subst h3; decide
        · simp [expand, escChar, h1, h2, h3]
  rw [hfun]

theorem ra3_nil (a b c : Char) (r : List Char) : ra3 a b c r [] = [] := rfl

theorem ra3_skip1 (a b c : Char) (r : List Char) (x : Char) (s : List Char)
    (h : x ≠ a) : ra3 a b c r (x :: s) = x :: ra3 a b c r s := by
  match s with
  | [] => rfl
  | [y] => rfl
  | y :: z :: rest => simp [ra3, h]

theorem ra3_skip2 (a b c : Char) (r : List Char) (y : Char) (s : List Char)
    (h : y ≠ b) : ra3 a b c r (a :: y :: s) = a :: ra3 a b c r (y :: s) := by
  match s with
  | [] => rfl
  | z :: rest => simp [ra3, h]

theorem ra3_skip3 (a b c : Char) (r : List Char) (z : Char) (s : List Char)
    (h : z ≠ c) : ra3 a b c r (a :: b :: z :: s) = a :: ra3 a b c r (b :: z :: s) := by
  simp [ra3, h]

theorem ra3_hit (a b c : Char) (r : List Char) (s : List Char) :
    ra3 a b c r (a :: b :: c :: s) = r ++ ra3 a b c r s := by
  simp [ra3]

/-- First unescape pass: on an escaped string, `replace(/%2E/g, ".")`
decodes exactly the blocks that came from a literal `.`. -/
theorem unesc_pass1 : ∀ s : List Char,
    ra3 '%' '2' 'E' ['.'] (expand escChar s) = expand escChar1 s
  | [] => rfl
  | c :: cs => by
    by_cases h1 : c = '%'
    · subst h1
      show ra3 '%' '2' 'E' ['.'] ('%' :: '2' :: '5' :: expand escChar cs) = _
      rw [ra3_skip3 _ _ _ _ _ _ (by decide), ra3_skip1 _ _ _ _ _ _ (by decide),
        ra3_skip1 _ _ _ _ _ _ (by decide), unesc_pass1 cs]
      rfl
    · by_cases h2 : c = '.'
      · subst h2
        show ra3 '%' '2' 'E' ['.'] ('%' :: '2' :: 'E' :: expand escChar cs) = _
        rw [ra3_hit, unesc_pass1 cs]
        rfl
      · by_cases h3 : c = '$'
        · subst h3
          show ra3 '%' '2' 'E' ['.'] ('%' :: '2' :: '4' :: expand escChar cs) = _
          rw [ra3_skip3 _ _ _ _ _ _ (by decide), ra3_skip1 _ _ _ _ _ _ (by decide),
            ra3_skip1 _ _ _ _ _ _ (by decide), unesc_pass1 cs]
          rfl
        · show ra3 '%' '2' 'E' ['.'] (expand escChar (c :: cs)) = _
          rw [show expand escChar (c :: cs) = c :: expand escChar cs by
              simp [expand, escChar, h1, h2, h3],
            ra3_skip1 _ _ _ _ _ _ h1, unesc_pass1 cs]
          simp [expand, escChar1, h1, h3]

/-- Second unescape pass: `replace(/%24/g, "$")` decodes exactly the blocks
that came from a literal `$`. -/
theorem unesc_pass2 : ∀ s : List Char,
    ra3 '%' '2' '4' ['$'] (expand escChar1 s) = expand escChar2 s
  | [] => rfl
  | c :: cs => by
    by_cases h1 : c = '%'
    · subst h1
      show ra3 '%' '2' '4' ['$'] ('%' :: '2' :: '5' :: expand escChar1 cs) = _
      rw [ra3_skip3 _ _ _ _ _ _ (by decide), ra3_skip1 _ _ _ _ _ _ (by decide),
        ra3_skip1 _ _ _ _ _ _ (by decide), unesc_pass2 cs]
      rfl
    · by_cases h3 : c = '$'
      · subst h3
        show ra3 '%' '2' '4' ['$'] ('%' :: '2' :: '4' :: expand escChar1 cs) = _
        rw [ra3_hit, unesc_pass2 cs]
        rfl
      · show ra3 '%' '2' '4' ['$'] (expand escChar1 (c :: cs)) = _
        rw [show expand escChar1 (c :: cs) = c :: expand escChar1 cs by
            simp [expand, escChar1, h1, h3],
          ra3_skip1 _ _ _ _ _ _ h1, unesc_pass2 cs]
        simp [expand, escChar2, h1]

/-- Third unescape pass: `replace(/%25/g, "%")` decodes the remaining blocks,
recovering the original string. -/
theorem unesc_pass3 : ∀ s : List Char,
    ra3 '%' '2' '5' ['%'] (expand escChar2 s) = s
  | [] => rfl
  | c :: cs => by
    by_cases h1 : c = '%'
    · subst h1
      show ra3 '%' '2' '5' ['%'] ('%' :: '2' :: '5' :: expand escChar2 cs) = _
      rw [ra3_hit, unesc_pass3 cs]
      rfl
    · show ra3 '%' '2' '5' ['%'] (expand escChar2 (c :: cs)) = _
      rw [show expand escChar2 (c :: cs) = c :: expand escChar2 cs by
          simp [expand, escChar2, h1],
        ra3_skip1 _ _ _ _ _ _ h1, unesc_pass3 cs]

/-- Per-key round trip: unescaping an escaped key recovers the key, for every
string, including strings containing `%`, `.`, `$` and literal `%2E`, `%24`,
`%25` substrings. -/
theorem unescKey_escKey (k : List Char) : unescKey (escKey k) = k := by
  rw [escKey_eq_expand]
  show ra3 '%' '2' '5' ['%'] (ra3 '%' '2' '4' ['$']
    (ra3 '%' '2' 'E' ['.'] (expand escChar k))) = k
  rw [unesc_pass1, unesc_pass2, unesc_pass3]

mutual
/-- Structural round trip over values: `unescapeKeys (escapeKeys x) = x`. -/
theorem unescape_escape : ∀ x : JVal, unescapeKeys (escapeKeys x) = x
  | .str s => rfl
  | .num n => rfl
  | .bool b => rfl
  | .null => rfl
  | .arr a => by rw [escapeKeys, unescapeKeys, unescapeArr_escapeArr a]
  | .obj o => by rw [escapeKeys, unescapeKeys, unescapeObj_escapeObj o]

/-- Structural round trip over arrays. -/
theorem unescapeArr_escapeArr : ∀ a : JArr, unescapeArr (escapeArr a) = a
  | .nil => rfl
  | .cons v rest => by
    rw [escapeArr, unescapeArr, unescape_escape v, unescapeArr_escapeArr rest]

/-- Structural round trip over objects. -/
theorem unescapeObj_escapeObj : ∀ o : JObj, unescapeObj (escapeObj o) = o
  | .nil => rfl
  | .cons k v rest => by
    rw [escapeObj, unescapeObj, unescKey_escKey k, unescape_escape v,
      unescapeObj_escapeObj rest]
end

/-- C1: for every nested structure built from mappings, sequences and
primitives — including mapping keys that contain `.`, `$`, `%`, or the
literal substrings `%2E`, `%24`, `%25` — `unescapeKeys (escapeKeys x)`
deep-equals `x`, the escape being applied to keys at every nesting depth. -/
theorem C1_escape_roundtrip : ∀ x : JVal, unescapeKeys (escapeKeys x) = x :=
  fun x => unescape_escape x

/-- C3 (amended): `escapeKeys` rewrites each mapping key by replacing every
`%` with `%25` first, then every `.` with `%2E`, then every `$` with `%24`
(stated here both as the literal order of the three `ra1` passes and as
their net one-pass effect `escChar`); escaping the mapping with the single
key `a%2E` yields the key `a%252E` (with the value recursively escaped,
hence unchanged when it is a primitive), and never the key `a.`. -/
theorem C3_escape_order (v : JVal) :
    (∀ k : List Char, escKey k =
      ra1 '$' ['%', '2', '4'] (ra1 '.' ['%', '2', 'E'] (ra1 '%' ['%', '2', '5'] k))) ∧
    (∀ k : List Char, escKey k = expand escChar k) ∧
    escapeKeys (.obj (.cons ['a', '%', '2', 'E'] v .nil))
      = .obj (.cons ['a', '%', '2', '5', '2', 'E'] (escapeKeys v) .nil) ∧
    (∀ s : List Char, escapeKeys (.obj (.cons ['a', '%', '2', 'E'] (.str s) .nil))
      = .obj (.cons ['a', '%', '2', '5', '2', 'E'] (.str s) .nil)) ∧
    (∀ w : JVal, escapeKeys (.obj (.cons ['a', '%', '2', 'E'] v .nil))
      ≠ .obj (.cons ['a', '.'] w .nil)) := by
  refine ⟨fun k => rfl, fun k => escKey_eq_expand k, ?_, fun s => ?_, fun w h => ?_⟩
  · rw [escapeKeys, escapeObj, escapeObj]
    rw [show escKey ['a', '%', '2', 'E'] = ['a', '%', '2', '5', '2', 'E'] from by decide]
  · rfl
  · rw [escapeKeys, escapeObj, escapeObj,
      show escKey ['a', '%', '2', 'E'] = ['a', '%', '2', '5', '2', 'E'] from by decide]
      at h
    have hk := (JObj.cons.injEq _ _ _ _ _ _).mp (JVal.obj.injEq _ _ |>.mp h) |>.1
    exact absurd hk (by decide)

/-- C3, counterexample to the claim as stated: the claim's example
"escaping the mapping with key `a%2E` and value `v` yields the mapping with
key `a%252E` and the same value `v`" fails for the nested value
`v = ⦃"." : null⦄`, because `escapeKeys` also escapes the keys inside the
value: the stored value is `⦃"%2E" : null⦄`, not `⦃"." : null⦄`. -/
theorem C3_counterexample :
    escapeKeys (.obj (.cons ['a', '%', '2', 'E'] (.obj (.cons ['.'] .null .nil)) .nil))
      ≠ .obj (.cons ['a', '%', '2', '5', '2', 'E'] (.obj (.cons ['.'] .null .nil)) .nil) := by
  intro h
  rw [escapeKeys, escapeObj] at h
  have hv := (JObj.cons.injEq _ _ _ _ _ _).mp (JVal.obj.injEq _ _ |>.mp h) |>.2.1
  rw [escapeKeys, escapeObj, escapeObj] at hv
  have hk := (JObj.cons.injEq _ _ _ _ _ _).mp (JVal.obj.injEq _ _ |>.mp hv) |>.1
  exact absurd hk (by decide)

example : escKey ['a', '%', '2', 'E'] = ['a', '%', '2', '5', '2', 'E'] := by decide
example : unescKey ['a', '%', '2', '5', '2', 'E'] = ['a', '%', '2', 'E'] := by decide
example : escKey ['a', '.', 'b'] = ['a', '%', '2', 'E', 'b'] := by decide
example : unescKey (escKey ['%', '2', '5', '.', '$']) = ['%', '2', '5', '.', '$'] := by decide

/-- A persisted NeDB document as written by `KeyvNedbStore.set`
(src/src/index.ts lines 126-142): `{ _id, value, updatedAt, expiredAt }`.
`expiredAt = none` models the JSON `null` written when no ttl is given. -/
structure Doc where
  id : List Char
  value : JVal
  updatedAt : Nat
  expiredAt : Option Nat

/-- The state of a `KeyvNedbStore`: the optional `namespace` string, the
serializer pair (by default `escapeKeys` / `unescapeKeys`), and the wrapped
NeDB datastore's document collection in insertion order. -/
structure Store where
  namesp : Option (List Char)
  stringify : JVal → JVal
  parse : JVal → JVal
  docs : List Doc

/-- `_getKey` (src/src/index.ts lines 99-101):
`this.namespace ? namespace + ":" + key : key`.  An empty namespace string
is falsy in JS, so it behaves like an absent namespace. -/
def getKey (ns : Option (List Char)) (k : List Char) : List Char :=
  match ns with
  | some n => if n = [] then k else n ++ ':' :: k
  | none => k

/-- NeDB's match of the query `{ expiredAt: { $lt: now } }` against a
document: `$lt` compares only values of the same primitive type, and `null`
is not comparable with a number, so `expiredAt = none` never matches. -/
def matchExpiredLt (now : Nat) (d : Doc) : Bool :=
  match d.expiredAt with
  | some t => decide (t < now)
  | none => false

/-- `removeAsync(query, { multi: false })`: removes at most the first
document matching the predicate. -/
def removeFirst (p : Doc → Bool) : List Doc → List Doc
  | [] => []
  | d :: ds => if p d then ds else d :: removeFirst p ds

/-- The startup housekeeping awaited through `ready` (src/src/index.ts lines
84-91): `removeAsync({ expiredAt: { $lt: Date.now() } }, { multi: false })`
followed by a datafile compaction; compaction rewrites the file without
changing the document collection, so it is the identity here. -/
def readyInit (now : Nat) (docs : List Doc) : List Doc :=
  removeFirst (matchExpiredLt now) docs

/-- The read-time expiry test of `get`:
`doc?.expiredAt && doc.expiredAt < Date.now()`.  Under JS truthiness both
`null` and the number `0` are falsy, so neither counts as expired here. -/
def isExpiredJS (now : Nat) (e : Option Nat) : Bool :=
  match e with
  | some t => decide (t ≠ 0) && decide (t < now)
  | none => false

/-- `findOneAsync({ _id: pk })`: the first document carrying this primary
key (NeDB keeps `_id` unique, so at most one exists). -/
def findOne (pk : List Char) (docs : List Doc) : Option Doc :=
  docs.find? (fun d => decide (d.id = pk))

/-- `get` (src/src/index.ts lines 103-116): look up the prefixed key; absent
record yields `none`; a record whose `expiredAt` is truthy and in the past
is removed (single-record `removeAsync` with `multi: false`) and `none` is
returned; otherwise the serializer's `parse` of the stored value is
returned.  The returned store carries the possibly updated collection. -/
def Store.get (S : Store) (now : Nat) (k : List Char) : Store × Option JVal :=
  let pk := getKey S.namesp k
  match findOne pk S.docs with
  | none => (S, none)
  | some d =>
    if isExpiredJS now d.expiredAt then
      (Store.mk S.namesp S.stringify S.parse
        (removeFirst (fun d2 => decide (d2.id = pk)) S.docs), none)
    else (S, some (S.parse d.value))

/-- NeDB `updateAsync({ _id: pk }, { $set: ... }, { upsert: true })` with the
default `multi: false`: replace the fields of the first document carrying
the key, or append a fresh document when none exists.  The `$set` patch of
`set` covers every field of the document schema, so it acts as a full
replacement. -/
def upsert (pk : List Char) (d : Doc) : List Doc → List Doc
  | [] => [d]
  | x :: xs => if x.id = pk then d :: xs else x :: upsert pk d xs

/-- The `expiredAt` field written by `set`: `ttl ? Date.now() + ttl : null`.
A ttl of `0` is falsy in JS, so it stores `null` exactly like an absent
ttl. -/
def mkExpiredAt (now : Nat) (ttl : Option Nat) : Option Nat :=
  match ttl with
  | some t => if t ≠ 0 then some (now + t) else none
  | none => none

/-- `set` (src/src/index.ts lines 126-142): upsert at the prefixed key the
document with the serialized value, `updatedAt = now` and the ttl-derived
`expiredAt`. -/
def Store.set (S : Store) (now : Nat) (k : List Char) (v : JVal)
    (ttl : Option Nat) : Store :=
  let pk := getKey S.namesp k
  Store.mk S.namesp S.stringify S.parse
    (upsert pk (Doc.mk pk (S.stringify v) now (mkExpiredAt now ttl)) S.docs)

/-- `delete` (src/src/index.ts lines 144-151):
`removeAsync({ _id: pk }, { multi: true })` removes every document carrying
the prefixed key and resolves to the removal count; the method returns
`count > 0`. -/
def Store.delete (S : Store) (k : List Char) : Store × Bool :=
  let pk := getKey S.namesp k
  (Store.mk S.namesp S.stringify S.parse
      (S.docs.filter (fun d => !decide (d.id = pk))),
    decide (0 < (S.docs.filter (fun d => decide (d.id = pk))).length))

/-- Boolean prefix test on character lists.  It models the NeDB query
`{ _id: new RegExp("^" + namespace + ":") }` used by `clear`; the namespace
is spliced into the pattern verbatim, so this model is faithful exactly for
namespaces containing no regex metacharacters (for which the regex means
"starts with the literal `namespace + ':'`"). -/
def startsWith : List Char → List Char → Bool
  | [], _ => true
  | _ :: _, [] => false
  | p :: ps, c :: cs => decide (p = c) && startsWith ps cs

/-- `clear` (src/src/index.ts lines 153-164): with a truthy namespace,
remove every document whose `_id` starts with `namespace + ":"`; otherwise
remove every document.  The trailing datafile compaction does not change
the document collection. -/
def Store.clear (S : Store) : Store :=
  match S.namesp with
  | some n =>
    if n = [] then Store.mk S.namesp S.stringify S.parse []
    else Store.mk S.namesp S.stringify S.parse
      (S.docs.filter (fun d => !startsWith (n ++ [':']) d.id))
  | none => Store.mk S.namesp S.stringify S.parse []

/-- Modelled from the spec: the `iterator` operation of `KeyvNedbStore` is
exercised by the repository's tests and examples, but its implementation is
not among the provided source files.  Following the spec's description of
`iterate`: enumerate the records of the store in order; when a namespace is
configured, keep only records whose physical key starts with
`namespace + ":"` and strip that prefix so the yielded key is the logical
key; records found expired during the scan are silently skipped; yielded
values are deserialized with the configured parse function. -/
def Store.iterate (S : Store) (now : Nat) : List (List Char × JVal) :=
  match S.namesp with
  | some n =>
    (S.docs.filter
      (fun d => startsWith (n ++ [':']) d.id && !matchExpiredLt now d)).map
      (fun d => (d.id.drop (n.length + 1), S.parse d.value))
  | none =>
    (S.docs.filter (fun d => !matchExpiredLt now d)).map
      (fun d => (d.id, S.parse d.value))

theorem startsWith_append_self : ∀ p t : List Char, startsWith p (p ++ t) = true
  | [], _ => rfl
  | c :: ps, t => by simp [startsWith, startsWith_append_self ps t]

theorem startsWith_iff (p : List Char) : ∀ s : List Char,
    startsWith p s = true ↔ ∃ t, s = p ++ t := by
  induction p with
  | nil => intro s; simp [startsWith]
  | cons c ps ih =>
    intro s
    cases s with
    | nil => simp [startsWith]
    | cons x xs =>
      simp only [startsWith, Bool.and_eq_true, decide_eq_true_eq, ih xs]
      constructor
      · rintro ⟨rfl, t, rfl⟩
        exact ⟨t, rfl⟩
      · rintro ⟨t, h⟩
        injection h with h1 h2
        exact ⟨h1.symm, t, h2⟩

/-- When `a` and `b` contain no colon, a string of the shape
`b ++ ":" ++ t` can only start with `a ++ ":"` when `a = b`: the colon acts
as a delimiter. -/
theorem startsWith_colon_eq (a : List Char) : ∀ b t : List Char, ':' ∉ a → ':' ∉ b →
    startsWith (a ++ [':']) (b ++ ':' :: t) = true → a = b := by
  induction a with
  | nil =>
    intro b t _ hb h
    cases b with
    | nil => rfl
    | cons y bs =>
      exfalso
      simp only [List.nil_append, List.cons_append, startsWith, Bool.and_eq_true,
        decide_eq_true_eq] at h
      exact hb (by rw [← h.1]; exact List.mem_cons_self _ _)
  | cons x as ih =>
    intro b t ha hb h
    cases b with
    | nil =>
      exfalso
      simp only [List.cons_append, List.nil_append, startsWith, Bool.and_eq_true,
        decide_eq_true_eq] at h
      exact ha (by rw [h.1]; exact List.mem_cons_self _ _)
    | cons y bs =>
      simp only [List.cons_append, startsWith, Bool.and_eq_true, decide_eq_true_eq] at h
      rw [h.1, ih bs t (fun hm => ha (List.mem_cons_of_mem _ hm))
        (fun hm => hb (List.mem_cons_of_mem _ hm)) h.2]

theorem findOne_upsert (pk : List Char) (d : Doc) (hd : d.id = pk) :
    ∀ docs : List Doc, findOne pk (upsert pk d docs) = some d := by
  intro docs
  induction docs with
  | nil => simp [upsert, findOne, List.find?, hd]
  | cons x xs ih =>
    by_cases hx : x.id = pk
    · simp [upsert, hx, findOne, List.find?, hd]
    · rw [show upsert pk d (x :: xs) = x :: upsert pk d xs from by simp [upsert, hx]]
      rw [show findOne pk (x :: upsert pk d xs) = findOne pk (upsert pk d xs) from ?_]
      · exact ih
      · simp [findOne, List.find?, hx]

/-- C2, counterexample to the claim as stated: with two distinct namespaces
sharing one physical store — here `a` and `a:b` — `clear` on the store with
namespace `a` removes the record with physical key `a:b:k`, which belongs to
the store with namespace `a:b` (physical key of logical key `k`).  The
namespace-prefix match on `a:` crosses into namespace `a:b`. -/
theorem C2_counterexample :
    (['a'] : List Char) ≠ ['a', ':', 'b'] ∧
    getKey (some ['a', ':', 'b']) ['k'] = ['a', ':', 'b', ':', 'k'] ∧
    ((Store.mk (some ['a']) escapeKeys unescapeKeys
        [Doc.mk ['a', ':', 'b', ':', 'k'] .null 0 none]).clear).docs = [] :=
  ⟨by decide, by decide, rfl⟩

/-- C2 (amended): `clear` on a store with (nonempty) namespace `n1` removes
exactly the records whose physical key starts with `n1 ++ ":"` (and then
compacts the datafile, which does not change the collection); provided the
namespace strings contain no `':'` (and no regex metacharacters, under which
assumption the embedding of the prefix query is faithful), a record
belonging to any distinct namespace `n2` is never removed. -/
theorem C2_clear_spec (f g : JVal → JVal) (docs : List Doc)
    (n1 n2 k2 : List Char) (h1 : n1 ≠ []) (h2 : n2 ≠ [])
    (hc1 : ':' ∉ n1) (hc2 : ':' ∉ n2) (hne : n1 ≠ n2) :
    ((Store.mk (some n1) f g docs).clear).docs
      = docs.filter (fun d => !startsWith (n1 ++ [':']) d.id) ∧
    ∀ d ∈ docs, d.id = getKey (some n2) k2 →
      d ∈ ((Store.mk (some n1) f g docs).clear).docs := by
  have hclear : ((Store.mk (some n1) f g docs).clear).docs
      = docs.filter (fun d => !startsWith (n1 ++ [':']) d.id) := by
    simp [Store.clear, h1]
  refine ⟨hclear, fun d hd hid => ?_⟩
  rw [hclear, List.mem_filter]
  refine ⟨hd, ?_⟩
  rw [hid, show getKey (some n2) k2 = n2 ++ ':' :: k2 from by simp [getKey, h2]]
  cases hsw : startsWith (n1 ++ [':']) (n2 ++ ':' :: k2) with
  | false => rfl
  | true => exact absurd (startsWith_colon_eq n1 n2 k2 hc1 hc2 hsw) hne

theorem C2_clear_spec_witness :
    (['a'] : List Char) ≠ [] ∧ (['b'] : List Char) ≠ [] ∧
    ':' ∉ (['a'] : List Char) ∧ ':' ∉ (['b'] : List Char) ∧
    (['a'] : List Char) ≠ ['b'] ∧
    (((Store.mk (some ['a']) escapeKeys unescapeKeys
        [Doc.mk ['b', ':', 'k'] .null 0 none]).clear).docs
      = [Doc.mk ['b', ':', 'k'] .null 0 none].filter
          (fun d => !startsWith (['a'] ++ [':']) d.id) ∧
     ∀ d ∈ [Doc.mk ['b', ':', 'k'] .null 0 none],
      d.id = getKey (some ['b']) ['k'] →
      d ∈ ((Store.mk (some ['a']) escapeKeys unescapeKeys
        [Doc.mk ['b', ':', 'k'] .null 0 none]).clear).docs) :=
  ⟨by decide, by decide, by decide, by decide, by decide,
    C2_clear_spec escapeKeys unescapeKeys [Doc.mk ['b', ':', 'k'] .null 0 none]
      ['a'] ['b'] ['k'] (by decide) (by decide) (by decide) (by decide) (by decide)⟩

/-- C8, counterexample to the claim as stated: the distinct namespaces `a`
and `a:b` derive the same physical key `a:b:x` for the logical keys `b:x`
and `x` respectively, so physical keys of distinct namespaces can collide
when a namespace may contain the `':'` delimiter. -/
theorem C8_counterexample :
    (['a'] : List Char) ≠ ['a', ':', 'b'] ∧
    getKey (some ['a']) ['b', ':', 'x'] = getKey (some ['a', ':', 'b']) ['x'] :=
  ⟨by decide, by decide⟩

/-- C8 (amended): for distinct nonempty namespaces that contain no `':'`,
the derived physical keys `namespace ++ ":" ++ logicalKey` never collide,
whatever the logical keys. -/
theorem C8_getKey_distinct (n1 n2 k1 k2 : List Char)
    (h1 : n1 ≠ []) (h2 : n2 ≠ []) (hc1 : ':' ∉ n1) (hc2 : ':' ∉ n2)
    (hne : n1 ≠ n2) : getKey (some n1) k1 ≠ getKey (some n2) k2 := by
  intro h
  rw [show getKey (some n1) k1 = n1 ++ ':' :: k1 from by simp [getKey, h1],
    show getKey (some n2) k2 = n2 ++ ':' :: k2 from by simp [getKey, h2]] at h
  apply hne
  apply startsWith_colon_eq n1 n2 k2 hc1 hc2
  rw [← h, show n1 ++ ':' :: k1 = (n1 ++ [':']) ++ k1 from by simp]
  exact startsWith_append_self _ _

theorem C8_getKey_distinct_witness :
    (['a'] : List Char) ≠ [] ∧ (['b'] : List Char) ≠ [] ∧
    ':' ∉ (['a'] : List Char) ∧ ':' ∉ (['b'] : List Char) ∧
    (['a'] : List Char) ≠ ['b'] ∧
    getKey (some ['a']) ['k'] ≠ getKey (some ['b']) ['k'] :=
  ⟨by decide, by decide, by decide, by decide, by decide,
    C8_getKey_distinct ['a'] ['b'] ['k'] ['k']
      (by decide) (by decide) (by decide) (by decide) (by decide)⟩

/-- C4, counterexample to the claim as stated: a record whose `expiredAt` is
set (to `0`) and lies in the past (`0 < 10`) is neither removed nor treated
as absent, because the read-time check `doc?.expiredAt && ...` uses JS
truthiness and the number `0` is falsy: `get` returns the stored value and
leaves the collection unchanged. -/
theorem C4_counterexample :
    ((Store.mk none escapeKeys unescapeKeys
        [Doc.mk ['k'] (.str ['v']) 0 (some 0)]).get 10 ['k']).2
      = some (.str ['v']) ∧
    ((Store.mk none escapeKeys unescapeKeys
        [Doc.mk ['k'] (.str ['v']) 0 (some 0)]).get 10 ['k']).1.docs
      = [Doc.mk ['k'] (.str ['v']) 0 (some 0)] ∧
    (0 : Nat) < 10 :=
  ⟨rfl, rfl, by decide⟩

/-- C4 (amended): for every logical key, `get` returns absent when no record
exists at the derived physical key; when the record's `expiredAt` is set,
nonzero (the code's truthiness test) and in the past, `get` removes that
single record and returns absent; otherwise `get` returns the configured
serializer's parse function applied to the stored value. -/
theorem C4_get_spec (S : Store) (now : Nat) (k : List Char) :
    ((∀ d ∈ S.docs, d.id ≠ getKey S.namesp k) → S.get now k = (S, none)) ∧
    (∀ d, findOne (getKey S.namesp k) S.docs = some d →
      (isExpiredJS now d.expiredAt = true →
        S.get now k = (Store.mk S.namesp S.stringify S.parse
          (removeFirst (fun d2 => decide (d2.id = getKey S.namesp k)) S.docs),
          none)) ∧
      (isExpiredJS now d.expiredAt = false →
        S.get now k = (S, some (S.parse d.value)))) := by
  constructor
  · intro h
    have hf : findOne (getKey S.namesp k) S.docs = none := by
      rw [findOne, List.find?_eq_none]
      intro d hd
      simp [h d hd]
    simp [Store.get, hf]
  · intro d hf
    constructor
    · intro hexp
      simp [Store.get, hf, hexp]
    · intro hexp
      simp [Store.get, hf, hexp]

theorem C4_get_spec_witness :
    (Store.mk none escapeKeys unescapeKeys
        [Doc.mk ['k'] .null 0 (some 5)]).get 10 ['k']
      = (Store.mk none escapeKeys unescapeKeys [], none) :=
  ((C4_get_spec (Store.mk none escapeKeys unescapeKeys
      [Doc.mk ['k'] .null 0 (some 5)]) 10 ['k']).2
    (Doc.mk ['k'] .null 0 (some 5)) rfl).1 (by decide)

/-- A `get` on a default-serializer store that finds a never-expiring record
holding `escapeKeys v` returns `v` and leaves the store unchanged. -/
theorem get_mk_found (ns : Option (List Char)) (D : List Doc) (now : Nat)
    (k : List Char) (t : Nat) (v : JVal)
    (hD : findOne (getKey ns k) D = some (Doc.mk (getKey ns k) (escapeKeys v) t none)) :
    (Store.mk ns escapeKeys unescapeKeys D).get now k
      = (Store.mk ns escapeKeys unescapeKeys D, some v) := by
  simp [Store.get, hD, isExpiredJS, unescape_escape]

/-- C5: re-setting a key with no ttl writes `expiredAt = null` — a full
replacement of the record, not a merge — so whatever ttl an earlier `set`
stored and however late the read happens, `get` on that key returns the
newly set value (the default serializer round trip recovers it exactly). -/
theorem C5_ttl_overwrite (ns : Option (List Char)) (docs : List Doc)
    (k : List Char) (v1 v2 : JVal) (ttl : Option Nat) (t1 t2 : Nat) :
    (∃ d, findOne (getKey ns k)
        ((((Store.mk ns escapeKeys unescapeKeys docs).set t1 k v1 ttl).set
          t2 k v2 none)).docs = some d ∧
      d.expiredAt = none ∧ d.value = escapeKeys v2) ∧
    ∀ now3,
      (((Store.mk ns escapeKeys unescapeKeys docs).set t1 k v1 ttl).set
          t2 k v2 none).get now3 k
        = ((((Store.mk ns escapeKeys unescapeKeys docs).set t1 k v1 ttl).set
            t2 k v2 none), some v2) := by
  have hdoc : findOne (getKey ns k)
      ((((Store.mk ns escapeKeys unescapeKeys docs).set t1 k v1 ttl).set
        t2 k v2 none)).docs
      = some (Doc.mk (getKey ns k) (escapeKeys v2) t2 none) :=
    findOne_upsert (getKey ns k) (Doc.mk (getKey ns k) (escapeKeys v2) t2 none)
      rfl _
  refine ⟨⟨Doc.mk (getKey ns k) (escapeKeys v2) t2 none, hdoc, rfl, rfl⟩,
    fun now3 => ?_⟩
  exact get_mk_found ns
    ((((Store.mk ns escapeKeys unescapeKeys docs).set t1 k v1 ttl).set
      t2 k v2 none)).docs now3 k t2 v2 hdoc

/-- C10: a `set` with ttl exactly `0` behaves like a `set` with no ttl —
`0` is falsy in JS, so `expiredAt = null` is stored, the entry never
expires, and `get` at any later time returns the value. -/
theorem C10_zero_ttl (ns : Option (List Char)) (docs : List Doc)
    (k : List Char) (v : JVal) (t1 : Nat) :
    (Store.mk ns escapeKeys unescapeKeys docs).set t1 k v (some 0)
      = (Store.mk ns escapeKeys unescapeKeys docs).set t1 k v none ∧
    (∃ d, findOne (getKey ns k)
        (((Store.mk ns escapeKeys unescapeKeys docs).set t1 k v (some 0))).docs
        = some d ∧ d.expiredAt = none ∧ d.value = escapeKeys v) ∧
    ∀ now2,
      (((Store.mk ns escapeKeys unescapeKeys docs).set t1 k v (some 0))).get now2 k
        = ((((Store.mk ns escapeKeys unescapeKeys docs).set t1 k v (some 0))),
            some v) := by
  have hdoc : findOne (getKey ns k)
      (((Store.mk ns escapeKeys unescapeKeys docs).set t1 k v (some 0))).docs
      = some (Doc.mk (getKey ns k) (escapeKeys v) t1 none) :=
    findOne_upsert (getKey ns k) (Doc.mk (getKey ns k) (escapeKeys v) t1 none)
      rfl _
  refine ⟨rfl, ⟨Doc.mk (getKey ns k) (escapeKeys v) t1 none, hdoc, rfl, rfl⟩,
    fun now2 => ?_⟩
  exact get_mk_found ns
    (((Store.mk ns escapeKeys unescapeKeys docs).set t1 k v (some 0))).docs
    now2 k t1 v hdoc

/-- C6: the claim says the startup housekeeping removes all already-expired
records, but the source calls `removeAsync({ expiredAt: { $lt: Date.now() } },
{ multi: false })`, which removes at most one document: with two expired
records in the datastore, one expired record survives the sweep.  The
`multi: false` contradicts the documented intent of an expired-record sweep
(the spec: "remove all records whose `expiredAt` is already in the past"). -/
theorem C6_startup_sweep_single :
    readyInit 100 [Doc.mk ['a'] .null 0 (some 1), Doc.mk ['b'] .null 0 (some 2)]
      = [Doc.mk ['b'] .null 0 (some 2)] ∧
    matchExpiredLt 100 (Doc.mk ['b'] .null 0 (some 2)) = true :=
  ⟨rfl, by decide⟩

/-- C9: `delete` removes exactly the records stored at the derived physical
key and returns `true` precisely when at least one record was removed
(removal count positive); deleting a key with no stored record returns
`false` (the operation is total — no error path exists). -/
theorem C9_delete_spec (ns : Option (List Char)) (f g : JVal → JVal)
    (docs : List Doc) (k : List Char) :
    ((Store.mk ns f g docs).delete k).1.docs
      = docs.filter (fun d => !decide (d.id = getKey ns k)) ∧
    (((Store.mk ns f g docs).delete k).2 = true ↔
      ∃ d ∈ docs, d.id = getKey ns k) := by
  refine ⟨rfl, ?_⟩
  show decide (0 < (docs.filter (fun d => decide (d.id = getKey ns k))).length)
      = true ↔ _
  rw [decide_eq_true_eq, List.length_pos_iff_exists_mem]
  constructor
  · rintro ⟨d, hd⟩
    rw [List.mem_filter] at hd
    exact ⟨d, hd.1, of_decide_eq_true hd.2⟩
  · rintro ⟨d, hd, hid⟩
    exact ⟨d, List.mem_filter.mpr ⟨hd, decide_eq_true hid⟩⟩

theorem drop_colon_block (n k : List Char) :
    (n ++ ':' :: k).drop (n.length + 1) = k := by
  have h1 : n ++ ':' :: k = (n ++ [':']) ++ k := by simp
  have h2 : (n ++ [':']).length = n.length + 1 := by simp
  rw [h1, ← h2]
  exact List.drop_left _ _

/-- C7: `iterate` yields exactly the pairs of logical key and deserialized
value of the non-expired records; with no namespace the logical key is the
physical key, with namespace `n` only records whose physical key is
`n ++ ":" ++ logicalKey` are yielded, with the prefix stripped; records
found expired during the scan are skipped without being removed. -/
theorem C7_iterate_spec (f g : JVal → JVal) (docs : List Doc)
    (n k : List Char) (v : JVal) (now : Nat) :
    ((k, v) ∈ (Store.mk none f g docs).iterate now ↔
      ∃ d ∈ docs, d.id = k ∧ matchExpiredLt now d = false ∧ v = g d.value) ∧
    ((k, v) ∈ (Store.mk (some n) f g docs).iterate now ↔
      ∃ d ∈ docs, d.id = n ++ ':' :: k ∧ matchExpiredLt now d = false
        ∧ v = g d.value) := by
  constructor
  · show (k, v) ∈ (docs.filter (fun d => !matchExpiredLt now d)).map
        (fun d => (d.id, g d.value)) ↔ _
    rw [List.mem_map]
    constructor
    · rintro ⟨d, hd, heq⟩
      rw [List.mem_filter] at hd
      rw [Prod.mk.injEq] at heq
      refine ⟨d, hd.1, heq.1, ?_, heq.2.symm⟩
      cases hm : matchExpiredLt now d with
      | false => rfl
      | true => rw [hm] at hd; exact absurd hd.2 (by decide)
    · rintro ⟨d, hd, hid, hexp, hv⟩
      exact ⟨d, List.mem_filter.mpr ⟨hd, by rw [hexp]; rfl⟩, by rw [hid, hv]⟩
  · show (k, v) ∈ (docs.filter
        (fun d => startsWith (n ++ [':']) d.id && !matchExpiredLt now d)).map
        (fun d => (d.id.drop (n.length + 1), g d.value)) ↔ _
    rw [List.mem_map]
    constructor
    · rintro ⟨d, hd, heq⟩
      rw [List.mem_filter, Bool.and_eq_true] at hd
      have hmem := hd.1
      have hsw := hd.2.1
      have hnexp := hd.2.2
      rw [Prod.mk.injEq] at heq
      obtain ⟨t, ht⟩ := (startsWith_iff _ _).mp hsw
      have hid : d.id = n ++ ':' :: t := by rw [ht]; simp
      have hk : t = k := by rw [← heq.1, hid, drop_colon_block]
      refine ⟨d, hmem, by rw [hid, hk], ?_, heq.2.symm⟩
      cases hm : matchExpiredLt now d with
      | false => rfl
      | true => rw [hm] at hnexp; exact absurd hnexp (by decide)
    · rintro ⟨d, hd, hid, hexp, hv⟩
      refine ⟨d, List.mem_filter.mpr ⟨hd, ?_⟩, ?_⟩
      · rw [Bool.and_eq_true]
        refine ⟨?_, by rw [hexp]; rfl⟩
        rw [hid, show n ++ ':' :: k = (n ++ [':']) ++ k from by simp]
        exact startsWith_append_self _ _
      · rw [hid, drop_colon_block, hv]

end KeyvNedb
